import Mathlib

/-!
Verification development for the streaming authenticated-encryption codec in
`src/cipher.rs` of the `diary` repository (struct `Encryptor`, struct
`Decryptor`, `hash_password`, and the associated `Write`/`Read` impls).

Modelling conventions:

* Bytes are `Nat`.  Real bytes are below 256; the idealized authentication
  tag occupies 16 positions (the Poly1305 tag length) whose first entry may
  exceed 255.

* The external STREAM primitive (`EncryptorBE32<XChaCha20Poly1305>` /
  `DecryptorBE32<XChaCha20Poly1305>` from the `chacha20poly1305` crate) is
  modelled as an ideal AEAD: `encryptChunk ctr last body` appends a 16-entry
  tag block that injectively authenticates the 32-bit BE counter, the
  `last` flag and the body, and `decryptChunk` accepts a ciphertext exactly
  when it is the encryption of its own body under the same counter and flag.
  This idealization makes tag collisions impossible, which is the standard
  (computational) reading of the AEAD guarantees the specification relies
  on.  The cipher key and the random stream nonce are fixed and equal on
  both sides in every claim considered here, so the ideal AEAD elides them;
  the counter and the last flag, which the claims exercise, are explicit.
  The `last` flag is authenticated with a Hamming-distance-two encoding
  (`4*core + 3` versus `4*core`) so that no single bit flip can convert a
  last-flag tag into a valid not-last tag, mirroring the full PRF
  separation the real construction provides.

* I/O: an output sink is modelled as the list of emitted ciphertext chunks;
  an input source for `Decryptor::read` is the list of byte slices that
  successive `inner.read` calls return (an empty trailing source models
  end of stream).  Sinks are infallible; fallible operations return a
  `RustResult`, whose `panicked` constructor models a Rust panic.
-/

/-- Plaintext window size: constant `CHUNK_SIZE` in `src/cipher.rs`. -/
def CHUNK_SIZE : Nat := 1024

/-- Stored nonce size: constant `NONCE_SIZE` in `src/cipher.rs`. -/
def NONCE_SIZE : Nat := 24

/-- Salt size: constant `SALT_SIZE` in `src/cipher.rs`. -/
def SALT_SIZE : Nat := 16

/-- Poly1305 authentication tag length (from the `chacha20poly1305` crate). -/
def TAG_SIZE : Nat := 16

/-- Length of `Decryptor.encrypted_buf`: the code allocates
`vec![0u8; CHUNK_SIZE + 32]` in `Decryptor::new`. -/
def ENCRYPTED_BUF_SIZE : Nat := CHUNK_SIZE + 32

/-- Nonce length demanded by the BE32 STREAM construction over
XChaCha20Poly1305: the 24-byte AEAD nonce minus 4 counter bytes and
1 flag byte. -/
def STREAM_NONCE_SIZE : Nat := NONCE_SIZE - 5

/-- Injective encoding of a byte list into a single natural number, used to
build the ideal authentication tag. -/
def encL : List Nat → Nat
  | [] => 0
  | x :: xs => Nat.pair x (encL xs) + 1

theorem encL_inj : ∀ {a b : List Nat}, encL a = encL b → a = b := by
  intro a
  induction a with
  | nil =>
    intro b h
    cases b with
    | nil => rfl
    | cons y ys => simp [encL] at h
  | cons x xs ih =>
    intro b h
    cases b with
    | nil => simp [encL] at h
    | cons y ys =>
      simp only [encL, Nat.add_right_cancel_iff] at h
      rcases Nat.pair_eq_pair.mp h with ⟨h1, h2⟩
      rw [h1, ih h2]

/-- Ideal tag value authenticating the BE32 counter, the last flag and the
chunk body.  The flag is encoded in the two low bits (`3` for a last chunk,
`0` otherwise) so that any single-bit corruption of a last-flag tag still
differs from every not-last tag. -/
def tagVal (ctr : Nat) (last : Bool) (body : List Nat) : Nat :=
  4 * Nat.pair ctr (encL body) + (cond last 3 0)

/-- The 16-entry tag block appended to each ciphertext chunk. -/
def tagBlock (ctr : Nat) (last : Bool) (body : List Nat) : List Nat :=
  tagVal ctr last body :: List.replicate (TAG_SIZE - 1) 0

/-- One STREAM encryption step: `encrypt_next` for `last = false`
(`Encryptor::write`), `encrypt_last` for `last = true` (`Encryptor::flush`).
Ciphertext is the body followed by the 16-entry tag block. -/
def encryptChunk (ctr : Nat) (last : Bool) (body : List Nat) : List Nat :=
  body ++ tagBlock ctr last body

/-- One STREAM decryption step: `decrypt_next` for `last = false`
(the only form `Decryptor::read` uses), `decrypt_last` for `last = true`.
Verification succeeds exactly when the trailing 16 entries are the tag block
of the leading body under the given counter and flag. -/
def decryptChunk (ctr : Nat) (last : Bool) (c : List Nat) : Option (List Nat) :=
  if TAG_SIZE ≤ c.length then
    let body := c.take (c.length - TAG_SIZE)
    if c.drop (c.length - TAG_SIZE) = tagBlock ctr last body then some body
    else none
  else none

theorem length_tagBlock (ctr : Nat) (last : Bool) (body : List Nat) :
    (tagBlock ctr last body).length = TAG_SIZE := by
  simp [tagBlock, TAG_SIZE]

theorem length_encryptChunk (ctr : Nat) (last : Bool) (body : List Nat) :
    (encryptChunk ctr last body).length = body.length + TAG_SIZE := by
  simp [encryptChunk, length_tagBlock]

theorem tagVal_last_ne_not_last (c c' : Nat) (b b' : List Nat) :
    tagVal c true b ≠ tagVal c' false b' := by
  simp only [tagVal, cond]
  omega

theorem tagVal_not_last_inj {c c' : Nat} {b b' : List Nat}
    (h : tagVal c false b = tagVal c' false b') : c = c' ∧ b = b' := by
  simp only [tagVal, cond, Nat.add_zero] at h
  have h2 : Nat.pair c (encL b) = Nat.pair c' (encL b') := by omega
  rcases Nat.pair_eq_pair.mp h2 with ⟨h3, h4⟩
  exact ⟨h3, encL_inj h4⟩

/-- Decryption succeeds on an untampered chunk under the matching counter
and flag. -/
theorem decryptChunk_encryptChunk (ctr : Nat) (last : Bool) (body : List Nat) :
    decryptChunk ctr last (encryptChunk ctr last body) = some body := by
  have hlen := length_encryptChunk ctr last body
  have htake : (encryptChunk ctr last body).take
      ((encryptChunk ctr last body).length - TAG_SIZE) = body := by
    rw [hlen, Nat.add_sub_cancel]
    exact List.take_left' rfl
  have hdrop : (encryptChunk ctr last body).drop
      ((encryptChunk ctr last body).length - TAG_SIZE) = tagBlock ctr last body := by
    rw [hlen, Nat.add_sub_cancel]
    exact List.drop_left' rfl
  unfold decryptChunk
  rw [if_pos (by omega)]
  simp only [htake, hdrop, if_pos rfl]
  simp

/-- Decryption under the not-last flag rejects any chunk sealed with the
last flag: the two tag encodings differ in their low bits. -/
theorem decryptChunk_last_ne (ctr ctr' : Nat) (body : List Nat) :
    decryptChunk ctr' false (encryptChunk ctr true body) = none := by
  have hlen := length_encryptChunk ctr true body
  have htake : (encryptChunk ctr true body).take
      ((encryptChunk ctr true body).length - TAG_SIZE) = body := by
    rw [hlen, Nat.add_sub_cancel]
    exact List.take_left' rfl
  have hdrop : (encryptChunk ctr true body).drop
      ((encryptChunk ctr true body).length - TAG_SIZE) = tagBlock ctr true body := by
    rw [hlen, Nat.add_sub_cancel]
    exact List.drop_left' rfl
  have hne : tagBlock ctr true body ≠ tagBlock ctr' false body := by
    intro h
    exact tagVal_last_ne_not_last ctr ctr' body body (by simpa [tagBlock] using h)
  unfold decryptChunk
  rw [if_pos (by omega)]
  simp only [htake, hdrop, if_neg hne]

/-- Result of a fallible Rust operation: `ok` for `Ok`, `err` for `Err`
(an `io::Result` error), `panicked` for a Rust panic. -/
inductive RustResult (α : Type) where
  | ok (val : α)
  | err
  | panicked
deriving DecidableEq

/-- Model of `hash_password` (Argon2id via the `argon2` crate): a
deterministic 32-byte key derived from the password and the salt.  The
external password hash is idealized as an injective-in-inputs function;
no claim below depends on its internal structure.  On a 16-byte salt the
real call always returns `Ok`, so the model is total. -/
def hashPassword (password salt : List Nat) : List Nat :=
  List.replicate 32 (Nat.pair (encL password) (encL salt))

/-- Model of `GenericArray::from_slice`, which panics (`none`) unless the
slice has exactly the demanded length. -/
def fromSlice (n : Nat) (l : List Nat) : Option (List Nat) :=
  if l.length = n then some l else none

/-- Model of `Read::read_exact` on a list source: take exactly `n` bytes or
fail with `UnexpectedEof`. -/
def readExact (n : Nat) (src : List Nat) : Option (List Nat × List Nat) :=
  if n ≤ src.length then some (src.take n, src.drop n) else none

/-- State of `Encryptor` after construction: the BE32 counter position, the
`encryptor: Option<EncryptorBE32<...>>` field (`alive = true` iff it is
`Some`), and the plaintext `buffer`. -/
structure EncState where
  ctr : Nat
  alive : Bool
  buffer : List Nat
deriving DecidableEq

/-- State of `Decryptor` after construction: the BE32 counter position and
the decrypted-data `buffer`.  The `decryptor` field is never taken, so it
needs no `Option`. -/
structure DecState where
  ctr : Nat
  buffer : List Nat
deriving DecidableEq

/-- Initial `Encryptor` state built at the end of `Encryptor::new`
(counter 0, live encryptor, empty buffer). -/
def encInit : EncState := ⟨0, true, []⟩

/-- Initial `Decryptor` state built at the end of `Decryptor::new`
(counter 0, empty decrypted buffer). -/
def decInit : DecState := ⟨0, []⟩

/-- Fuel-indexed model of the `while self.buffer.len() >= CHUNK_SIZE` loop
in `Encryptor::write`: drain full windows and emit their `encrypt_next`
ciphertexts.  Fuel at least the buffer length suffices, since each
iteration consumes `CHUNK_SIZE ≥ 1` bytes. -/
def emitChunksF : Nat → Nat → List Nat → List (List Nat) × Nat × List Nat
  | 0, ctr, b => ([], ctr, b)
  | fuel + 1, ctr, b =>
    if CHUNK_SIZE ≤ b.length then
      let c := encryptChunk ctr false (b.take CHUNK_SIZE)
      let r := emitChunksF fuel (ctr + 1) (b.drop CHUNK_SIZE)
      (c :: r.1, r.2)
    else ([], ctr, b)

/-- The `Encryptor::write` chunk-emission loop: emitted ciphertext chunks,
final counter, and the plaintext left in the buffer. -/
def emitChunks (ctr : Nat) (b : List Nat) : List (List Nat) × Nat × List Nat :=
  emitChunksF b.length ctr b

theorem emitChunksF_fuel : ∀ (f₁ f₂ ctr : Nat) (b : List Nat),
    b.length ≤ f₁ → b.length ≤ f₂ → emitChunksF f₁ ctr b = emitChunksF f₂ ctr b := by
  intro f₁
  induction f₁ with
  | zero =>
    intro f₂ ctr b h1 _
    have hb : b = [] := List.eq_nil_of_length_eq_zero (Nat.le_zero.mp h1)
    subst hb
    cases f₂ with
    | zero => rfl
    | succ f => simp [emitChunksF, CHUNK_SIZE]
  | succ f ih =>
    intro f₂ ctr b h1 h2
    cases f₂ with
    | zero =>
      have hb : b = [] := List.eq_nil_of_length_eq_zero (Nat.le_zero.mp h2)
      subst hb
      simp [emitChunksF, CHUNK_SIZE]
    | succ f' =>
      simp only [emitChunksF]
      by_cases hc : CHUNK_SIZE ≤ b.length
      · rw [if_pos hc, if_pos hc]
        have hd : (b.drop CHUNK_SIZE).length ≤ f := by
          simp only [List.length_drop]
          have : (1 : Nat) ≤ CHUNK_SIZE := by simp [CHUNK_SIZE]
          omega
        have hd' : (b.drop CHUNK_SIZE).length ≤ f' := by
          simp only [List.length_drop]
          have : (1 : Nat) ≤ CHUNK_SIZE := by simp [CHUNK_SIZE]
          omega
        rw [ih f' (ctr + 1) (b.drop CHUNK_SIZE) hd hd']
      · rw [if_neg hc, if_neg hc]

/-- Unfolding law of the emission loop when a full window is buffered. -/
theorem emitChunks_cons {b : List Nat} (ctr : Nat) (h : CHUNK_SIZE ≤ b.length) :
    emitChunks ctr b =
      (encryptChunk ctr false (b.take CHUNK_SIZE) :: (emitChunks (ctr + 1) (b.drop CHUNK_SIZE)).1,
       (emitChunks (ctr + 1) (b.drop CHUNK_SIZE)).2) := by
  have h1 : (1 : Nat) ≤ CHUNK_SIZE := by simp [CHUNK_SIZE]
  unfold emitChunks
  have hb : ∃ m, b.length = m + 1 := ⟨b.length - 1, by omega⟩
  rcases hb with ⟨m, hm⟩
  rw [hm]
  simp only [emitChunksF, if_pos (hm ▸ h)]
  have : emitChunksF m (ctr + 1) (b.drop CHUNK_SIZE) =
      emitChunksF (b.drop CHUNK_SIZE).length (ctr + 1) (b.drop CHUNK_SIZE) := by
    apply emitChunksF_fuel
    · simp only [List.length_drop]; omega
    · exact Nat.le_refl _
  rw [this, if_pos h]

/-- Unfolding law of the emission loop when less than a window is buffered. -/
theorem emitChunks_small {b : List Nat} (ctr : Nat) (h : b.length < CHUNK_SIZE) :
    emitChunks ctr b = ([], ctr, b) := by
  unfold emitChunks
  cases hl : b.length with
  | zero => rfl
  | succ m =>
    simp only [emitChunksF]
    rw [if_neg (by omega)]

/-- Model of `<Encryptor as Write>::write` (lines 56-73 of `src/cipher.rs`):
extend the buffer, then drain and encrypt full windows.  When the
`encryptor` has already been taken by `flush` and a full window
accumulates, the `self.encryptor.as_mut().unwrap()` call panics.  The sink
is infallible, so the only outcomes are `ok` (with the emitted ciphertext
chunks and the new state) and `panicked`. -/
def encWrite (st : EncState) (buf : List Nat) : RustResult (List (List Nat) × EncState) :=
  let b := st.buffer ++ buf
  if st.alive then
    let r := emitChunks st.ctr b
    .ok (r.1, ⟨r.2.1, true, r.2.2⟩)
  else if CHUNK_SIZE ≤ b.length then .panicked
  else .ok ([], ⟨st.ctr, false, b⟩)

/-- Model of `<Encryptor as Write>::flush` (lines 75-86 of `src/cipher.rs`):
if the buffer is nonempty and the encryptor is still present, take it,
emit `encrypt_last` of the buffer, and clear the buffer; otherwise do
nothing.  Returns the emitted chunks and the new state. -/
def encFlush (st : EncState) : List (List Nat) × EncState :=
  if st.buffer = [] then ([], st)
  else if st.alive then
    ([encryptChunk st.ctr true st.buffer], ⟨st.ctr, false, []⟩)
  else ([], st)

/-- Header bytes written by `Encryptor::new` (lines 34-40 of
`src/cipher.rs`): the 24-byte nonce first, then the 16-byte salt. -/
def encryptorHeader (nonce salt : List Nat) : List Nat :=
  nonce ++ salt

/-- Model of `Encryptor::new` (lines 33-52 of `src/cipher.rs`).  The fresh
random `nonce` and `salt` are injected as parameters (in the program they
are stack arrays of NONCE_SIZE and SALT_SIZE bytes).  The function writes
the header, derives the key, then builds
`EncryptorBE32::from_aead(cipher, GenericArray::from_slice(&nonce))`;
`from_slice` demands a STREAM_NONCE_SIZE-byte slice and panics otherwise.
On success it returns the header bytes written to the sink and the initial
state. -/
def encryptorNew (key nonce salt : List Nat) : RustResult (List Nat × EncState) :=
  let header := encryptorHeader nonce salt
  let kh := hashPassword key salt
  match fromSlice STREAM_NONCE_SIZE nonce with
  | none => .panicked
  | some _ => .ok (header, encInit)

/-- Header parsing done by `Decryptor::new` (lines 98-102 of
`src/cipher.rs`): `read_exact` a 24-byte nonce, then a 16-byte salt;
returns them with the remaining stream. -/
def decryptorHeader (src : List Nat) : Option (List Nat × List Nat × List Nat) :=
  match readExact NONCE_SIZE src with
  | none => none
  | some (nonce, r1) =>
    match readExact SALT_SIZE r1 with
    | none => none
    | some (salt, r2) => some (nonce, salt, r2)

/-- Model of `Decryptor::new` (lines 97-115 of `src/cipher.rs`): parse the
header, derive the key, then build
`DecryptorBE32::from_aead(cipher, GenericArray::from_slice(&nonce))`,
which panics unless the nonce slice has STREAM_NONCE_SIZE bytes.  On
success it returns the parsed nonce and salt, the initial state and the
remaining ciphertext stream. -/
def decryptorNew (key src : List Nat) :
    RustResult (List Nat × List Nat × DecState × List Nat) :=
  match decryptorHeader src with
  | none => .err
  | some (nonce, salt, rest) =>
    let kh := hashPassword key salt
    match fromSlice STREAM_NONCE_SIZE nonce with
    | none => .panicked
    | some _ => .ok (nonce, salt, decInit, rest)

/-- Ciphertext chunk stream produced by an `Encryptor` fed the plaintext
`P` in one `write` call and then flushed (the container file is the header
followed by the concatenation of these chunks). -/
def encryptStream (P : List Nat) : List (List Nat) :=
  match encWrite encInit P with
  | .ok (cs, st) => cs ++ (encFlush st).1
  | _ => []

/-- Model of one call to `<Decryptor as Read>::read` (lines 118-149 of
`src/cipher.rs`) with a caller buffer of `outLen` bytes.  The source is the
list of slices successive `inner.read` calls return.  Behaviour, in source
order: serve buffered plaintext if any; a zero-length inner read is
reported as end of stream (`Ok(0)`, modelled as `ok` with empty output);
otherwise decrypt the slice (capped at the `encrypted_buf` size) with
`decrypt_next`, copy what fits and buffer the remainder.  An
authentication failure is an `io::Error` (`err`). -/
def readStep (st : DecState) (src : List (List Nat)) (outLen : Nat) :
    RustResult (List Nat × DecState × List (List Nat)) :=
  if st.buffer ≠ [] then
    .ok (st.buffer.take (min outLen st.buffer.length),
      ⟨st.ctr, st.buffer.drop (min outLen st.buffer.length)⟩, src)
  else
    match src with
    | [] => .ok ([], st, [])
    | piece :: rest =>
      if piece.take ENCRYPTED_BUF_SIZE = [] then .ok ([], st, rest)
      else
        match decryptChunk st.ctr false (piece.take ENCRYPTED_BUF_SIZE) with
        | some pt =>
          .ok (pt.take (min outLen pt.length), ⟨st.ctr + 1, pt.drop (min outLen pt.length)⟩, rest)
        | none => .err

/-- Result of calling `Decryptor::read` repeatedly until end of stream or
the first error, with a caller buffer at least as large as every decrypted
chunk (so the internal buffer is always fully drained between inner
reads).  Each recursive step is one execution of the read body: decrypt
the next slice (capped at the `encrypted_buf` size) with `decrypt_next`
under the running counter.  Returns the concatenated plaintext delivered
to the caller and whether the stream ended without an authentication
error (`Ok(0)` reached, `true`) or aborted with an error (`false`). -/
def drain : Nat → List (List Nat) → List Nat × Bool
  | _, [] => ([], true)
  | ctr, piece :: rest =>
    match decryptChunk ctr false (piece.take ENCRYPTED_BUF_SIZE) with
    | some pt =>
      let r := drain (ctr + 1) rest
      (pt ++ r.1, r.2)
    | none => ([], false)

/-- Chunk stream an `Encryptor` with a live encryptor, counter `ctr` and
buffered plaintext `b` emits if it is flushed now: the full windows from
the write loop followed by the `encrypt_last` chunk of any remainder
(`flush` skips the terminal chunk when the buffer is empty). -/
def sealFrom (ctr : Nat) (b : List Nat) : List (List Nat) :=
  let r := emitChunks ctr b
  r.1 ++ (if r.2.2 = [] then [] else [encryptChunk r.2.1 true r.2.2])

theorem sealFrom_small {b : List Nat} (ctr : Nat) (h : b.length < CHUNK_SIZE) :
    sealFrom ctr b = if b = [] then [] else [encryptChunk ctr true b] := by
  unfold sealFrom
  rw [emitChunks_small ctr h]
  by_cases hb : b = [] <;> simp [hb]

theorem sealFrom_cons {b : List Nat} (ctr : Nat) (h : CHUNK_SIZE ≤ b.length) :
    sealFrom ctr b =
      encryptChunk ctr false (b.take CHUNK_SIZE) :: sealFrom (ctr + 1) (b.drop CHUNK_SIZE) := by
  unfold sealFrom
  rw [emitChunks_cons ctr h]
  simp [List.cons_append]

theorem encryptStream_eq_sealFrom (P : List Nat) : encryptStream P = sealFrom 0 P := by
  unfold encryptStream encWrite sealFrom
  simp only [encInit, if_pos rfl, List.nil_append]
  unfold encFlush
  by_cases hb : (emitChunks 0 P).2.2 = [] <;> simp [hb]

/-- Flip bit `j` of the byte at position `p` (XOR with a power of two),
used to state the tamper-detection claim. -/
def flipAt (p j : Nat) (l : List Nat) : List Nat :=
  l.set p ((l.getD p 0) ^^^ (2 ^ j))

theorem xor_two_pow_ne_self (x j : Nat) : x ^^^ 2 ^ j ≠ x := by
  intro h
  have h2 : x ^^^ (x ^^^ 2 ^ j) = x ^^^ x := congrArg (x ^^^ ·) h
  rw [← Nat.xor_assoc, Nat.xor_self, Nat.zero_xor] at h2
  have hp : 0 < 2 ^ j := Nat.pos_pow_of_pos j (by omega)
  omega

theorem four_mul_add_three_xor_ne (x y j : Nat) :
    (4 * x + 3) ^^^ 2 ^ j ≠ 4 * y := by
  intro h
  have e1 : Nat.testBit (4 * x + 3) 0 = true := by
    rw [Nat.testBit_zero]
    simp only [decide_eq_true_eq]
    omega
  have e1' : Nat.testBit (4 * x + 3) 1 = true := by
    rw [show (1 : Nat) = 0 + 1 from rfl, Nat.testBit_add_one, Nat.testBit_zero]
    simp only [decide_eq_true_eq]
    omega
  have e3 : Nat.testBit (4 * y) 0 = false := by
    rw [Nat.testBit_zero]
    simp only [decide_eq_false_iff_not]
    omega
  have e3' : Nat.testBit (4 * y) 1 = false := by
    rw [show (1 : Nat) = 0 + 1 from rfl, Nat.testBit_add_one, Nat.testBit_zero]
    simp only [decide_eq_false_iff_not]
    omega
  rcases Nat.eq_zero_or_pos j with hj | hj
  · subst hj
    have e2 : Nat.testBit (2 ^ 0) 1 = false := by
      rw [Nat.testBit_two_pow]
      simp
    have hb1 := congrArg (fun n => Nat.testBit n 1) h
    simp only [Nat.testBit_xor] at hb1
    rw [e1', e2, e3'] at hb1
    simp at hb1
  · have e2 : Nat.testBit (2 ^ j) 0 = false := by
      rw [Nat.testBit_two_pow]
      simp only [decide_eq_false_iff_not]
      omega
    have hb := congrArg (fun n => Nat.testBit n 0) h
    simp only [Nat.testBit_xor] at hb
    rw [e1, e2, e3] at hb
    simp at hb

theorem getD_set_self {l : List Nat} {p : Nat} (v : Nat) (h : p < l.length) :
    (l.set p v).getD p 0 = v := by
  simp [List.getD_eq_getElem?_getD, List.getElem?_set_self h]

theorem flipAt_getD {l : List Nat} {p j : Nat} (h : p < l.length) :
    (flipAt p j l).getD p 0 = l.getD p 0 ^^^ 2 ^ j :=
  getD_set_self _ h

theorem flipAt_ne {l : List Nat} {p j : Nat} (h : p < l.length) : flipAt p j l ≠ l := by
  intro he
  have h2 := congrArg (fun t => t.getD p 0) he
  simp only [flipAt_getD h] at h2
  exact xor_two_pow_ne_self _ j h2

theorem length_flipAt (p j : Nat) (l : List Nat) : (flipAt p j l).length = l.length := by
  simp [flipAt]

theorem flipAt_append_left {l₁ l₂ : List Nat} (p j : Nat) (h : p < l₁.length) :
    flipAt p j (l₁ ++ l₂) = flipAt p j l₁ ++ l₂ := by
  unfold flipAt
  rw [List.getD_append _ _ _ _ h, List.set_append_left _ _ h]

theorem flipAt_append_right {l₁ l₂ : List Nat} (p j : Nat) (h : l₁.length ≤ p) :
    flipAt p j (l₁ ++ l₂) = l₁ ++ flipAt (p - l₁.length) j l₂ := by
  unfold flipAt
  rw [List.getD_append_right _ _ _ _ h, List.set_append_right _ _ h]

theorem tagBlock_getD_zero (c : Nat) (l : Bool) (b : List Nat) :
    (tagBlock c l b).getD 0 0 = tagVal c l b := by
  simp [tagBlock]

theorem tagBlock_getD_succ (c : Nat) (l : Bool) (b : List Nat) (q : Nat) :
    (tagBlock c l b).getD (q + 1) 0 = 0 := by
  simp only [tagBlock, List.getD_cons_succ]
  simp [List.getD_eq_getElem?_getD, List.getElem?_replicate]
  split <;> rfl

/-- General shape of one decryption step on a body-plus-16-entry-tag
ciphertext: verification compares the trailing block against the expected
tag block of the body. -/
theorem decryptChunk_append (ctr : Nat) (body tag : List Nat)
    (ht : tag.length = TAG_SIZE) :
    decryptChunk ctr false (body ++ tag) =
      if tag = tagBlock ctr false body then some body else none := by
  have hlen : (body ++ tag).length = body.length + TAG_SIZE := by
    simp [ht]
  have htake : (body ++ tag).take ((body ++ tag).length - TAG_SIZE) = body := by
    rw [hlen, Nat.add_sub_cancel]
    exact List.take_left' rfl
  have hdrop : (body ++ tag).drop ((body ++ tag).length - TAG_SIZE) = tag := by
    rw [hlen, Nat.add_sub_cancel]
    exact List.drop_left' rfl
  unfold decryptChunk
  rw [if_pos (by omega)]
  simp only [htake, hdrop]

/-- A single-bit flip inside the tag block is never accepted: entry 0
carries the flag-separated tag value and entries 1-15 must be zero. -/
theorem tagBlock_flip_ne (ctr ctr'' : Nat) (last : Bool) (body body' : List Nat)
    (q j : Nat) (hq : q < TAG_SIZE)
    (hcase : last = true ∨ (last = false ∧ ctr'' = ctr ∧ body' = body)) :
    flipAt q j (tagBlock ctr last body) ≠ tagBlock ctr'' false body' := by
  intro he
  have hlen : q < (tagBlock ctr last body).length := by
    rw [length_tagBlock]
    exact hq
  have hreq := congrArg (fun t => t.getD q 0) he
  simp only [flipAt_getD hlen] at hreq
  cases q with
  | zero =>
    rw [tagBlock_getD_zero, tagBlock_getD_zero] at hreq
    rcases hcase with hl | ⟨hl, hc, hb⟩
    · subst hl
      simp only [tagVal, cond] at hreq
      exact four_mul_add_three_xor_ne _ _ j hreq
    · subst hl; subst hc; subst hb
      exact xor_two_pow_ne_self _ j hreq
  | succ q' =>
    rw [tagBlock_getD_succ, tagBlock_getD_succ] at hreq
    have hp : 0 < 2 ^ j := Nat.pos_pow_of_pos j (by omega)
    rw [Nat.zero_xor] at hreq
    omega

/-- Flipping any single bit of a non-final ciphertext chunk makes
`decrypt_next` under the matching counter reject it. -/
theorem decryptChunk_flipAt_next (ctr : Nat) (body : List Nat) (p j : Nat)
    (hp : p < body.length + TAG_SIZE) :
    decryptChunk ctr false (flipAt p j (encryptChunk ctr false body)) = none := by
  by_cases hpb : p < body.length
  · rw [encryptChunk, flipAt_append_left p j hpb,
      decryptChunk_append ctr _ _ (length_tagBlock ctr false body)]
    rw [if_neg]
    intro he
    have hh := congrArg (fun t => t.getD 0 0) he
    simp only [tagBlock_getD_zero] at hh
    rcases tagVal_not_last_inj hh with ⟨-, h4⟩
    exact flipAt_ne hpb h4.symm
  · have hle : body.length ≤ p := Nat.le_of_not_lt hpb
    rw [encryptChunk, flipAt_append_right p j hle]
    rw [decryptChunk_append ctr _ _
      (by rw [length_flipAt, length_tagBlock])]
    rw [if_neg]
    exact tagBlock_flip_ne ctr ctr false body body (p - body.length) j
      (by omega) (Or.inr ⟨rfl, rfl, rfl⟩)

/-- Flipping any single bit of a final (last-flag) ciphertext chunk makes
`decrypt_next` under any counter reject it. -/
theorem decryptChunk_flipAt_last (ctr ctr' : Nat) (body : List Nat) (p j : Nat)
    (hp : p < body.length + TAG_SIZE) :
    decryptChunk ctr' false (flipAt p j (encryptChunk ctr true body)) = none := by
  by_cases hpb : p < body.length
  · rw [encryptChunk, flipAt_append_left p j hpb,
      decryptChunk_append ctr' _ _ (length_tagBlock ctr true body)]
    rw [if_neg]
    intro he
    have hh := congrArg (fun t => t.getD 0 0) he
    simp only [tagBlock_getD_zero] at hh
    exact tagVal_last_ne_not_last ctr ctr' body (flipAt p j body) hh
  · have hle : body.length ≤ p := Nat.le_of_not_lt hpb
    rw [encryptChunk, flipAt_append_right p j hle]
    rw [decryptChunk_append ctr' _ _
      (by rw [length_flipAt, length_tagBlock])]
    rw [if_neg]
    exact tagBlock_flip_ne ctr ctr' true body body (p - body.length) j
      (by omega) (Or.inl rfl)

theorem drain_nil (ctr : Nat) : drain ctr [] = ([], true) := rfl

theorem drain_cons_ok {ctr : Nat} {c : List Nat} {rest : List (List Nat)} {pt : List Nat}
    (h : decryptChunk ctr false (c.take ENCRYPTED_BUF_SIZE) = some pt) :
    drain ctr (c :: rest) = (pt ++ (drain (ctr + 1) rest).1, (drain (ctr + 1) rest).2) := by
  simp [drain, h]

theorem drain_cons_err {ctr : Nat} {c : List Nat} {rest : List (List Nat)}
    (h : decryptChunk ctr false (c.take ENCRYPTED_BUF_SIZE) = none) :
    drain ctr (c :: rest) = ([], false) := by
  simp [drain, h]

theorem take_buf_of_le {c : List Nat} (h : c.length ≤ ENCRYPTED_BUF_SIZE) :
    c.take ENCRYPTED_BUF_SIZE = c :=
  List.take_of_length_le h

/-- Streams of exactly `N` full windows: the write loop emits `N` non-final
chunks, `flush` adds nothing (its buffer is empty), and the chunk-at-a-time
reader reconstructs the plaintext with a clean end of stream. -/
theorem sealFrom_exact : ∀ (N ctr : Nat) (P : List Nat), P.length = CHUNK_SIZE * N →
    sealFrom ctr P = (emitChunks ctr P).1 ∧ (sealFrom ctr P).length = N ∧
    drain ctr (sealFrom ctr P) = (P, true) := by
  intro N
  induction N with
  | zero =>
    intro ctr P hlen
    have hP : P = [] := List.eq_nil_of_length_eq_zero (by simpa using hlen)
    subst hP
    have hsmall : ([] : List Nat).length < CHUNK_SIZE := by simp [CHUNK_SIZE]
    rw [sealFrom_small ctr hsmall, emitChunks_small ctr hsmall]
    simp [drain_nil]
  | succ N ih =>
    intro ctr P hlen
    have hge : CHUNK_SIZE ≤ P.length := by
      rw [hlen, Nat.mul_succ]
      omega
    have hdlen : (P.drop CHUNK_SIZE).length = CHUNK_SIZE * N := by
      simp only [List.length_drop]
      rw [hlen, Nat.mul_succ]
      omega
    rcases ih (ctr + 1) (P.drop CHUNK_SIZE) hdlen with ⟨ih1, ih2, ih3⟩
    have hcons := sealFrom_cons ctr hge
    have htlen : (P.take CHUNK_SIZE).length = CHUNK_SIZE := by
      simp only [List.length_take]
      omega
    have hdec : decryptChunk ctr false
        ((encryptChunk ctr false (P.take CHUNK_SIZE)).take ENCRYPTED_BUF_SIZE) =
        some (P.take CHUNK_SIZE) := by
      rw [take_buf_of_le (by
        rw [length_encryptChunk, htlen]
        simp [ENCRYPTED_BUF_SIZE, TAG_SIZE])]
      exact decryptChunk_encryptChunk ctr false (P.take CHUNK_SIZE)
    refine ⟨?_, ?_, ?_⟩
    · rw [hcons, ih1, emitChunks_cons ctr hge]
    · rw [hcons]
      simp only [List.length_cons]
      rw [ih2]
    · rw [hcons, drain_cons_ok hdec, ih3]
      simp [List.take_append_drop]

/-- Tampering with bit `j` of byte `p` of chunk `t` of a sealed stream:
the chunk-at-a-time reader decrypts the untampered full chunks before `t`,
rejects chunk `t`, and aborts.  The delivered plaintext is exactly the
first `CHUNK_SIZE * t` sealed bytes. -/
theorem drain_flip : ∀ (t ctr : Nat) (b : List Nat) (p j : Nat),
    t < (sealFrom ctr b).length →
    p < ((sealFrom ctr b).getD t []).length →
    drain ctr ((sealFrom ctr b).set t (flipAt p j ((sealFrom ctr b).getD t []))) =
      (b.take (CHUNK_SIZE * t), false) := by
  intro t
  induction t with
  | zero =>
    intro ctr b p j ht hp
    simp only [Nat.mul_zero, List.take_zero]
    by_cases hbig : CHUNK_SIZE ≤ b.length
    · rw [sealFrom_cons ctr hbig] at ht hp ⊢
      simp only [List.getD_cons_zero] at hp ⊢
      simp only [List.set_cons_zero]
      have htlen : (b.take CHUNK_SIZE).length = CHUNK_SIZE := by
        simp only [List.length_take]
        omega
      have hp' : p < (b.take CHUNK_SIZE).length + TAG_SIZE := by
        rw [htlen]
        rw [length_encryptChunk, htlen] at hp
        exact hp
      have hfdec : decryptChunk ctr false
          ((flipAt p j (encryptChunk ctr false (b.take CHUNK_SIZE))).take
            ENCRYPTED_BUF_SIZE) = none := by
        rw [take_buf_of_le (by
          rw [length_flipAt, length_encryptChunk, htlen]
          simp [ENCRYPTED_BUF_SIZE, TAG_SIZE])]
        exact decryptChunk_flipAt_next ctr (b.take CHUNK_SIZE) p j hp'
      exact drain_cons_err hfdec
    · have hsmall : b.length < CHUNK_SIZE := Nat.lt_of_not_le hbig
      rw [sealFrom_small ctr hsmall] at ht hp ⊢
      by_cases hb : b = []
      · rw [if_pos hb] at ht
        simp at ht
      · rw [if_neg hb] at ht hp ⊢
        simp only [List.getD_cons_zero] at hp ⊢
        simp only [List.set_cons_zero]
        have hp' : p < b.length + TAG_SIZE := by
          rw [length_encryptChunk] at hp
          exact hp
        have hfdec : decryptChunk ctr false
            ((flipAt p j (encryptChunk ctr true b)).take ENCRYPTED_BUF_SIZE) = none := by
          rw [take_buf_of_le (by
            rw [length_flipAt, length_encryptChunk]
            have hC : CHUNK_SIZE = 1024 := rfl
            have hT : TAG_SIZE = 16 := rfl
            have hE : ENCRYPTED_BUF_SIZE = 1056 := rfl
            omega)]
          exact decryptChunk_flipAt_last ctr ctr b p j hp'
        exact drain_cons_err hfdec
  | succ t ih =>
    intro ctr b p j ht hp
    by_cases hbig : CHUNK_SIZE ≤ b.length
    · rw [sealFrom_cons ctr hbig] at ht hp ⊢
      simp only [List.length_cons] at ht
      simp only [List.getD_cons_succ] at hp ⊢
      simp only [List.set_cons_succ]
      have htlen : (b.take CHUNK_SIZE).length = CHUNK_SIZE := by
        simp only [List.length_take]
        omega
      have hdec : decryptChunk ctr false
          ((encryptChunk ctr false (b.take CHUNK_SIZE)).take ENCRYPTED_BUF_SIZE) =
          some (b.take CHUNK_SIZE) := by
        rw [take_buf_of_le (by
          rw [length_encryptChunk, htlen]
          simp [ENCRYPTED_BUF_SIZE, TAG_SIZE])]
        exact decryptChunk_encryptChunk ctr false (b.take CHUNK_SIZE)
      rw [drain_cons_ok hdec]
      rw [ih (ctr + 1) (b.drop CHUNK_SIZE) p j (by omega) hp]
      rw [show CHUNK_SIZE * (t + 1) = CHUNK_SIZE + CHUNK_SIZE * t by ring,
        List.take_add]
    · have hsmall : b.length < CHUNK_SIZE := Nat.lt_of_not_le hbig
      rw [sealFrom_small ctr hsmall] at ht
      by_cases hb : b = []
      · rw [if_pos hb] at ht
        simp at ht
      · rw [if_neg hb] at ht
        simp at ht

theorem emitChunks_rest_lt : ∀ (n : Nat) (b : List Nat) (ctr : Nat), b.length ≤ n →
    (emitChunks ctr b).2.2.length < CHUNK_SIZE := by
  intro n
  induction n with
  | zero =>
    intro b ctr h
    have hb : b = [] := List.eq_nil_of_length_eq_zero (Nat.le_zero.mp h)
    subst hb
    rw [emitChunks_small ctr (by simp [CHUNK_SIZE])]
    simp [CHUNK_SIZE]
  | succ n ih =>
    intro b ctr h
    by_cases hc : CHUNK_SIZE ≤ b.length
    · rw [emitChunks_cons ctr hc]
      have hC : CHUNK_SIZE = 1024 := rfl
      exact ih (b.drop CHUNK_SIZE) (ctr + 1) (by simp only [List.length_drop]; omega)
    · rw [emitChunks_small ctr (Nat.lt_of_not_le hc)]
      exact Nat.lt_of_not_le hc

theorem emitChunks_chunk_length : ∀ (n : Nat) (b : List Nat) (ctr : Nat), b.length ≤ n →
    ∀ c ∈ (emitChunks ctr b).1, c.length = CHUNK_SIZE + TAG_SIZE := by
  intro n
  induction n with
  | zero =>
    intro b ctr h
    have hb : b = [] := List.eq_nil_of_length_eq_zero (Nat.le_zero.mp h)
    subst hb
    rw [emitChunks_small ctr (by simp [CHUNK_SIZE])]
    simp
  | succ n ih =>
    intro b ctr h
    by_cases hc : CHUNK_SIZE ≤ b.length
    · rw [emitChunks_cons ctr hc]
      intro c hmem
      rcases List.mem_cons.mp hmem with hhead | htail
      · subst hhead
        rw [length_encryptChunk]
        simp only [List.length_take]
        omega
      · have hC : CHUNK_SIZE = 1024 := rfl
        exact ih (b.drop CHUNK_SIZE) (ctr + 1)
          (by simp only [List.length_drop]; omega) c htail
    · rw [emitChunks_small ctr (Nat.lt_of_not_le hc)]
      simp

theorem decryptChunk_some_length {ctr : Nat} {last : Bool} {c pt : List Nat}
    (h : decryptChunk ctr last c = some pt) : pt.length = c.length - TAG_SIZE := by
  unfold decryptChunk at h
  by_cases h1 : TAG_SIZE ≤ c.length
  · rw [if_pos h1] at h
    by_cases h2 : c.drop (c.length - TAG_SIZE) = tagBlock ctr last (c.take (c.length - TAG_SIZE))
    · rw [if_pos h2] at h
      have : pt = c.take (c.length - TAG_SIZE) := (Option.some.injEq _ _ ▸ h).symm
      subst this
      simp only [List.length_take]
      omega
    · rw [if_neg h2] at h
      exact absurd h (by simp)
  · rw [if_neg h1] at h
    exact absurd h (by simp)

theorem decryptorHeader_of_le {src : List Nat} (h : NONCE_SIZE + SALT_SIZE ≤ src.length) :
    decryptorHeader src =
      some (src.take NONCE_SIZE, (src.drop NONCE_SIZE).take SALT_SIZE,
        (src.drop NONCE_SIZE).drop SALT_SIZE) := by
  have r1 : readExact NONCE_SIZE src = some (src.take NONCE_SIZE, src.drop NONCE_SIZE) := by
    unfold readExact
    rw [if_pos (by omega)]
  have r2 : readExact SALT_SIZE (src.drop NONCE_SIZE) =
      some ((src.drop NONCE_SIZE).take SALT_SIZE, (src.drop NONCE_SIZE).drop SALT_SIZE) := by
    unfold readExact
    rw [if_pos (by simp only [List.length_drop]; omega)]
  simp only [decryptorHeader, r1, r2]

theorem decryptorHeader_none_of_short {src : List Nat}
    (h : src.length < NONCE_SIZE + SALT_SIZE) : decryptorHeader src = none := by
  by_cases h1 : NONCE_SIZE ≤ src.length
  · have r1 : readExact NONCE_SIZE src = some (src.take NONCE_SIZE, src.drop NONCE_SIZE) := by
      unfold readExact
      rw [if_pos h1]
    have r2 : readExact SALT_SIZE (src.drop NONCE_SIZE) = none := by
      unfold readExact
      rw [if_neg (by simp only [List.length_drop]; omega)]
    simp only [decryptorHeader, r1, r2]
  · have r1 : readExact NONCE_SIZE src = none := by
      unfold readExact
      rw [if_neg h1]
    simp only [decryptorHeader, r1]

/-- Claim C1 (code bug): the encrypt-then-decrypt round trip fails on the
code.  For the one-byte plaintext `[7]` the Encryptor seals the single
final chunk with `encrypt_last` (last flag), but `Decryptor::read` decrypts
every incoming chunk with `decrypt_next` (not-last flag), so authentication
fails and reading yields an error and no plaintext — `([], false)` instead
of `([7], true)`. -/
theorem c1_round_trip_fails :
    encryptStream [7] = [encryptChunk 0 true [7]] ∧
    decryptChunk 0 false ((encryptChunk 0 true [7]).take ENCRYPTED_BUF_SIZE) = none ∧
    drain 0 (encryptStream [7]) = ([], false) := by
  decide

/-- Claim C2 (confirmed): flipping any single bit (position `p`, bit `j`)
of any ciphertext chunk `t` of a stream produced by the Encryptor makes the
Decryptor fail authentication at or before chunk `t`: the caller receives
exactly the plaintext of the untampered full chunks before `t`
(`P.take (CHUNK_SIZE * t)`) and the stream aborts with an error, so no
plaintext byte of the tampered chunk or any later chunk is ever returned. -/
theorem c2_tamper_detected (P : List Nat) (t p j : Nat)
    (ht : t < (encryptStream P).length)
    (hp : p < ((encryptStream P).getD t []).length) :
    drain 0 ((encryptStream P).set t (flipAt p j ((encryptStream P).getD t []))) =
      (P.take (CHUNK_SIZE * t), false) := by
  rw [encryptStream_eq_sealFrom] at ht hp ⊢
  exact drain_flip t 0 P p j ht hp

theorem c2_tamper_detected_witness :
    0 < (encryptStream [3]).length ∧
    0 < ((encryptStream [3]).getD 0 []).length ∧
    drain 0 ((encryptStream [3]).set 0 (flipAt 0 0 ((encryptStream [3]).getD 0 []))) =
      ([3].take (CHUNK_SIZE * 0), false) :=
  ⟨by decide, by decide, c2_tamper_detected [3] 0 0 0 (by decide) (by decide)⟩

/-- Claim C3 (code bug): truncation is not detected.  Sealing the
plaintext `[5]` produces exactly one (final) ciphertext chunk; removing
that final chunk leaves the empty chunk stream, on which the Decryptor
reports a clean end of stream (`Ok(0)`, success `true`) instead of an
error — `Decryptor::read` returns 0 as soon as `inner.read` does, with no
check that a terminal chunk ever verified. -/
theorem c3_truncation_undetected :
    encryptStream [5] = [encryptChunk 0 true [5]] ∧
    drain 0 [] = ([], true) ∧
    readStep decInit [] 4096 = .ok ([], decInit, []) := by
  decide

/-- Claim C4 (counterexample): for `N = 0` (empty plaintext) the claim
predicts one legitimately empty final chunk, but `flush` skips the terminal
chunk whenever the buffer is empty, so the code emits no chunk at all. -/
theorem c4_counterexample :
    encryptStream [] = [] ∧ encryptStream [] ≠ [encryptChunk 0 true []] := by
  decide

/-- Claim C4 (amended): a plaintext of exactly `N * CHUNK_SIZE` bytes
produces exactly the `N` full non-final chunks of the write loop — each of
`CHUNK_SIZE + TAG_SIZE` bytes — and no terminal chunk (`flush` skips an
empty buffer); chunk-aligned decryption still reconstructs exactly the
`N * CHUNK_SIZE` plaintext bytes with a clean end of stream. -/
theorem c4_exact_multiple (N : Nat) (P : List Nat) (h : P.length = CHUNK_SIZE * N) :
    encryptStream P = (emitChunks 0 P).1 ∧
    (encryptStream P).length = N ∧
    (∀ c ∈ encryptStream P, c.length = CHUNK_SIZE + TAG_SIZE) ∧
    drain 0 (encryptStream P) = (P, true) := by
  rcases sealFrom_exact N 0 P h with ⟨h1, h2, h3⟩
  rw [encryptStream_eq_sealFrom]
  refine ⟨h1, h2, ?_, h3⟩
  rw [h1]
  exact emitChunks_chunk_length P.length P 0 (Nat.le_refl _)

theorem c4_exact_multiple_witness :
    ([] : List Nat).length = CHUNK_SIZE * 0 ∧
    (encryptStream [] = (emitChunks 0 []).1 ∧
     (encryptStream []).length = 0 ∧
     (∀ c ∈ encryptStream [], c.length = CHUNK_SIZE + TAG_SIZE) ∧
     drain 0 (encryptStream []) = ([], true)) :=
  ⟨by decide, c4_exact_multiple 0 [] (by decide)⟩

/-- Claim C5 (counterexample): the container does not begin with the salt.
With nonce bytes all 1 and salt bytes all 2, the first SALT_SIZE bytes of
the header written by `Encryptor::new` are nonce bytes, not the salt — the
code writes the nonce first. -/
theorem c5_counterexample :
    (encryptorHeader (List.replicate NONCE_SIZE 1) (List.replicate SALT_SIZE 2)).take
      SALT_SIZE ≠ List.replicate SALT_SIZE 2 := by
  decide

/-- Claim C5 (amended): the header is the 24-byte nonce followed by the
16-byte salt, with no length prefix, and `Decryptor::new` reads back the
nonce first and then the salt, recovering exactly what was written and
leaving the chunk stream. -/
theorem c5_header_order (nonce salt rest : List Nat)
    (hn : nonce.length = NONCE_SIZE) (hs : salt.length = SALT_SIZE) :
    encryptorHeader nonce salt = nonce ++ salt ∧
    decryptorHeader (encryptorHeader nonce salt ++ rest) = some (nonce, salt, rest) := by
  refine ⟨rfl, ?_⟩
  have e : encryptorHeader nonce salt ++ rest = nonce ++ (salt ++ rest) := by
    simp [encryptorHeader]
  rw [e]
  have r1 : readExact NONCE_SIZE (nonce ++ (salt ++ rest)) = some (nonce, salt ++ rest) := by
    unfold readExact
    rw [if_pos (by simp only [List.length_append, hn]; omega)]
    rw [List.take_left' hn, List.drop_left' hn]
  have r2 : readExact SALT_SIZE (salt ++ rest) = some (salt, rest) := by
    unfold readExact
    rw [if_pos (by simp only [List.length_append, hs]; omega)]
    rw [List.take_left' hs, List.drop_left' hs]
  simp only [decryptorHeader, r1, r2]

theorem c5_header_order_witness :
    (List.replicate NONCE_SIZE 1).length = NONCE_SIZE ∧
    (List.replicate SALT_SIZE 2).length = SALT_SIZE ∧
    (encryptorHeader (List.replicate NONCE_SIZE 1) (List.replicate SALT_SIZE 2) =
        List.replicate NONCE_SIZE 1 ++ List.replicate SALT_SIZE 2 ∧
      decryptorHeader (encryptorHeader (List.replicate NONCE_SIZE 1)
          (List.replicate SALT_SIZE 2) ++ [9]) =
        some (List.replicate NONCE_SIZE 1, List.replicate SALT_SIZE 2, [9])) :=
  ⟨by decide, by decide,
    c5_header_order (List.replicate NONCE_SIZE 1) (List.replicate SALT_SIZE 2) [9]
      (by decide) (by decide)⟩

/-- Claim C6 (code bug): the read window is `CHUNK_SIZE + 32` bytes, not
the `CHUNK_SIZE + TAG_SIZE` bytes a ciphertext chunk occupies, and the
short final read is decrypted with the not-last flag: the final chunk of
the one-byte plaintext `[6]` is rejected by `decrypt_next` but would be
accepted by `decrypt_last`. -/
theorem c6_framing_bug :
    ENCRYPTED_BUF_SIZE = CHUNK_SIZE + 32 ∧
    ENCRYPTED_BUF_SIZE ≠ CHUNK_SIZE + TAG_SIZE ∧
    decryptChunk 0 false ((encryptChunk 0 true [6]).take ENCRYPTED_BUF_SIZE) = none ∧
    decryptChunk 0 true ((encryptChunk 0 true [6]).take ENCRYPTED_BUF_SIZE) = some [6] := by
  decide

/-- Claim C7 (code bug): both constructors panic unconditionally.  The
stored nonce is a 24-byte array, but `EncryptorBE32::from_aead` /
`DecryptorBE32::from_aead` over XChaCha20Poly1305 take a 19-byte stream
nonce, so `GenericArray::from_slice(&nonce)` panics on the length mismatch
in `Encryptor::new` and in `Decryptor::new` (once the 40 header bytes were
read). -/
theorem c7_constructors_panic :
    encryptorNew [] (List.replicate NONCE_SIZE 0) (List.replicate SALT_SIZE 0) = .panicked ∧
    decryptorNew [] (List.replicate (NONCE_SIZE + SALT_SIZE) 0) = .panicked := by
  decide

/-- Claim C8 (counterexample): write after finalize does not return an
error.  After `flush` emits the terminal chunk and takes the encryptor, a
subsequent `write` of `[2]` returns `Ok` and silently buffers the byte. -/
theorem c8_counterexample :
    encFlush ⟨0, true, [1]⟩ = ([encryptChunk 0 true [1]], ⟨0, false, []⟩) ∧
    encWrite ⟨0, false, []⟩ [2] = .ok ([], ⟨0, false, [2]⟩) := by
  decide

/-- Claim C8 (amended): once the encryptor has been taken by a flush, a
further `write` silently buffers its bytes and returns `Ok` while the
buffer stays under `CHUNK_SIZE`, panics (on `unwrap` of the taken
encryptor) as soon as a full window accumulates, and never returns an
error; a further `flush` emits nothing, so the terminal chunk is emitted
at most once. -/
theorem c8_write_after_finalize (st : EncState) (buf : List Nat)
    (hdead : st.alive = false) :
    ((st.buffer ++ buf).length < CHUNK_SIZE →
      encWrite st buf = .ok ([], ⟨st.ctr, false, st.buffer ++ buf⟩)) ∧
    (CHUNK_SIZE ≤ (st.buffer ++ buf).length → encWrite st buf = .panicked) ∧
    (encFlush st).1 = [] := by
  refine ⟨?_, ?_, ?_⟩
  · intro h
    unfold encWrite
    rw [hdead]
    simp only [Bool.false_eq_true, if_false]
    rw [if_neg (by omega)]
  · intro h
    unfold encWrite
    rw [hdead]
    simp only [Bool.false_eq_true, if_false]
    rw [if_pos h]
  · unfold encFlush
    rw [hdead]
    by_cases hb : st.buffer = []
    · rw [if_pos hb]
    · rw [if_neg hb]
      simp

theorem c8_write_after_finalize_witness :
    (⟨5, false, [1]⟩ : EncState).alive = false ∧
    ((([1] : List Nat) ++ [2]).length < CHUNK_SIZE →
      encWrite ⟨5, false, [1]⟩ [2] = .ok ([], ⟨5, false, ([1] : List Nat) ++ [2]⟩)) ∧
    (CHUNK_SIZE ≤ (([1] : List Nat) ++ [2]).length →
      encWrite ⟨5, false, [1]⟩ [2] = .panicked) ∧
    (encFlush ⟨5, false, [1]⟩).1 = [] :=
  ⟨rfl, c8_write_after_finalize ⟨5, false, [1]⟩ [2] rfl⟩

/-- Claim C9 (confirmed): a source shorter than the 40-byte header
(24-byte nonce plus 16-byte salt) makes `Decryptor::new` fail with an
`io::Error` from `read_exact` before any chunk is decrypted; no Decryptor
is returned. -/
theorem c9_short_container (key src : List Nat)
    (h : src.length < NONCE_SIZE + SALT_SIZE) :
    decryptorNew key src = .err := by
  unfold decryptorNew
  rw [decryptorHeader_none_of_short h]

theorem c9_short_container_witness :
    (List.replicate 39 0).length < NONCE_SIZE + SALT_SIZE ∧
    decryptorNew [] (List.replicate 39 0) = .err :=
  ⟨by decide, c9_short_container [] (List.replicate 39 0) (by decide)⟩

/-- Claim C10 (confirmed): bounded buffering.  Whenever a call to
`Encryptor::write` returns, the plaintext buffer holds strictly fewer than
`CHUNK_SIZE` bytes (the write loop drains every full window; if it cannot,
it panics rather than return).  Whenever a call to `Decryptor::read`
returns `Ok`, the decrypted buffer holds at most one decrypted chunk of
bytes — at most `CHUNK_SIZE + TAG_SIZE`, the most a single
`decrypt_next` of one `encrypted_buf`-sized read can yield — so the codec
never accumulates more than one chunk of data regardless of stream size. -/
theorem c10_bounded_buffers :
    (∀ (st : EncState) (buf : List Nat) (out : List (List Nat)) (st' : EncState),
      encWrite st buf = .ok (out, st') → st'.buffer.length < CHUNK_SIZE) ∧
    (∀ (st : DecState) (src : List (List Nat)) (outLen : Nat) (o : List Nat)
        (st' : DecState) (src' : List (List Nat)),
      st.buffer.length ≤ CHUNK_SIZE + TAG_SIZE →
      readStep st src outLen = .ok (o, st', src') →
      st'.buffer.length ≤ CHUNK_SIZE + TAG_SIZE) := by
  constructor
  · intro st buf out st' h
    unfold encWrite at h
    by_cases ha : st.alive = true
    · rw [if_pos ha] at h
      simp only [RustResult.ok.injEq, Prod.mk.injEq] at h
      rw [← h.2]
      exact emitChunks_rest_lt (st.buffer ++ buf).length (st.buffer ++ buf) st.ctr
        (Nat.le_refl _)
    · rw [if_neg ha] at h
      by_cases hc : CHUNK_SIZE ≤ (st.buffer ++ buf).length
      · rw [if_pos hc] at h
        exact absurd h (by simp)
      · rw [if_neg hc] at h
        simp only [RustResult.ok.injEq, Prod.mk.injEq] at h
        rw [← h.2]
        exact Nat.lt_of_not_le hc
  · intro st src outLen o st' src' hb h
    unfold readStep at h
    split at h
    · simp only [RustResult.ok.injEq, Prod.mk.injEq] at h
      rw [← h.2.1]
      simp only [List.length_drop]
      omega
    · split at h
      · simp only [RustResult.ok.injEq, Prod.mk.injEq] at h
        rw [← h.2.1]
        exact hb
      · next piece rest =>
        split at h
        · simp only [RustResult.ok.injEq, Prod.mk.injEq] at h
          rw [← h.2.1]
          exact hb
        · split at h
          · next pt hdec =>
            simp only [RustResult.ok.injEq, Prod.mk.injEq] at h
            rw [← h.2.1]
            have hlen := decryptChunk_some_length hdec
            have hple : (piece.take ENCRYPTED_BUF_SIZE).length ≤ ENCRYPTED_BUF_SIZE := by
              simp [List.length_take]
            have hC : CHUNK_SIZE = 1024 := rfl
            have hT : TAG_SIZE = 16 := rfl
            have hEb : ENCRYPTED_BUF_SIZE = 1056 := rfl
            simp only [List.length_drop]
            omega
          · exact absurd h (by simp)

theorem c10_bounded_buffers_witness :
    ((⟨0, true, [1]⟩ : EncState).buffer.length < CHUNK_SIZE) ∧
    ((⟨0, []⟩ : DecState).buffer.length ≤ CHUNK_SIZE + TAG_SIZE ∧
      (⟨1, [9]⟩ : DecState).buffer.length ≤ CHUNK_SIZE + TAG_SIZE) :=
  ⟨c10_bounded_buffers.1 ⟨0, true, []⟩ [1] [] ⟨0, true, [1]⟩ (by decide),
   by decide,
   c10_bounded_buffers.2 ⟨0, []⟩ [encryptChunk 0 false [9]] 0 [] ⟨1, [9]⟩ []
     (by decide) (by decide)⟩
